import Mathlib

/-!
Verification development for a hash-chained pharmaceutical event ledger
(`Block` / `PharmaBlockChain`): an executable shallow embedding of the
program, followed by theorems about its validation, append, genesis,
export and display operations.

All machine words are modelled as `Nat` reduced modulo `2 ^ 32` where the
program relies on 32-bit overflow (the SHA-256 compression function).
-/

/-- Reduce a natural number to a 32-bit word. -/
def w32 (x : Nat) : Nat := x % 4294967296

/-- Rotate (the low 32 bits of) a word right by `n` bits, `0 < n < 32`. -/
def rotr32 (x n : Nat) : Nat := w32 ((x >>> n) ||| (x <<< (32 - n)))

/-- Bitwise complement within 32 bits. -/
def not32 (x : Nat) : Nat := x ^^^ 4294967295

/-- SHA-256 choice function. -/
def sha_ch (x y z : Nat) : Nat := (x &&& y) ^^^ (not32 x &&& z)

/-- SHA-256 majority function. -/
def sha_maj (x y z : Nat) : Nat := (x &&& y) ^^^ (x &&& z) ^^^ (y &&& z)

/-- SHA-256 big sigma 0. -/
def bigSigma0 (x : Nat) : Nat := rotr32 x 2 ^^^ rotr32 x 13 ^^^ rotr32 x 22

/-- SHA-256 big sigma 1. -/
def bigSigma1 (x : Nat) : Nat := rotr32 x 6 ^^^ rotr32 x 11 ^^^ rotr32 x 25

/-- SHA-256 small sigma 0. -/
def smallSigma0 (x : Nat) : Nat := rotr32 x 7 ^^^ rotr32 x 18 ^^^ (x >>> 3)

/-- SHA-256 small sigma 1. -/
def smallSigma1 (x : Nat) : Nat := rotr32 x 17 ^^^ rotr32 x 19 ^^^ (x >>> 10)

/-- The 64 SHA-256 round constants, written in decimal. -/
def sha_k : List Nat :=
  [1116352408, 1899447441, 3049323471, 3921009573, 961987163, 1508970993,
   2453635748, 2870763221, 3624381080, 310598401, 607225278, 1426881987,
   1925078388, 2162078206, 2614888103, 3248222580, 3835390401, 4022224774,
   264347078, 604807628, 770255983, 1249150122, 1555081692, 1996064986,
   2554220882, 2821834349, 2952996808, 3210313671, 3336571891, 3584528711,
   113926993, 338241895, 666307205, 773529912, 1294757372, 1396182291,
   1695183700, 1986661051, 2177026350, 2456956037, 2730485921, 2820302411,
   3259730800, 3345764771, 3516065817, 3600352804, 4094571909, 275423344,
   430227734, 506948616, 659060556, 883997877, 958139571, 1322822218,
   1537002063, 1747873779, 1955562222, 2024104815, 2227730452, 2361852424,
   2428436474, 2756734187, 3204031479, 3329325298]

/-- The SHA-256 initial hash state, written in decimal. -/
def sha_h0 : List Nat :=
  [1779033703, 3144134277, 1013904242, 2773480762,
   1359893119, 2600822924, 528734635, 1541459225]

/-- Group a byte list into 32-bit big-endian words. -/
def bytesToWords : List Nat → List Nat
  | b0 :: b1 :: b2 :: b3 :: rest =>
      (b0 * 16777216 + b1 * 65536 + b2 * 256 + b3) :: bytesToWords rest
  | _ => []

/-- Extend a 16-word message schedule by `fuel` further words. -/
def extendSchedule : List Nat → Nat → List Nat
  | ws, 0 => ws
  | ws, fuel + 1 =>
      let t := ws.length
      let nw := w32 (smallSigma1 (ws.getD (t - 2) 0) + ws.getD (t - 7) 0 +
                     smallSigma0 (ws.getD (t - 15) 0) + ws.getD (t - 16) 0)
      extendSchedule (ws ++ [nw]) fuel

/-- One SHA-256 round on the eight-word working state. -/
def sha_round (st : Nat × Nat × Nat × Nat × Nat × Nat × Nat × Nat) (k w : Nat) :
    Nat × Nat × Nat × Nat × Nat × Nat × Nat × Nat :=
  match st with
  | (a, b, c, d, e, f, g, h) =>
    let t1 := w32 (h + bigSigma1 e + sha_ch e f g + k + w)
    let t2 := w32 (bigSigma0 a + sha_maj a b c)
    (w32 (t1 + t2), a, b, c, w32 (d + t1), e, f, g)

/-- Compress one 64-byte block into the running hash state. -/
def sha_compress (H : List Nat) (block : List Nat) : List Nat :=
  let ws := extendSchedule (bytesToWords block) 48
  let a0 := H.getD 0 0
  let b0 := H.getD 1 0
  let c0 := H.getD 2 0
  let d0 := H.getD 3 0
  let e0 := H.getD 4 0
  let f0 := H.getD 5 0
  let g0 := H.getD 6 0
  let h0 := H.getD 7 0
  match (sha_k.zip ws).foldl (fun st p => sha_round st p.1 p.2)
      (a0, b0, c0, d0, e0, f0, g0, h0) with
  | (a, b, c, d, e, f, g, h) =>
      [w32 (a0 + a), w32 (b0 + b), w32 (c0 + c), w32 (d0 + d),
       w32 (e0 + e), w32 (f0 + f), w32 (g0 + g), w32 (h0 + h)]

/-- Big-endian 8-byte encoding of a (bit-)length. -/
def lenBytes64 (n : Nat) : List Nat :=
  [(n >>> 56) % 256, (n >>> 48) % 256, (n >>> 40) % 256, (n >>> 32) % 256,
   (n >>> 24) % 256, (n >>> 16) % 256, (n >>> 8) % 256, n % 256]

/-- SHA-256 padding: append `0x80`, zero bytes, and the 64-bit bit length. -/
def sha_pad (msg : List Nat) : List Nat :=
  let L := msg.length
  let padlen := (119 - L % 64) % 64
  msg ++ 128 :: List.replicate padlen 0 ++ lenBytes64 (8 * L)

/-- Split a byte list into 64-byte chunks; the fuel bounds the recursion and
is always taken at least as large as the list length. -/
def chunks64F : Nat → List Nat → List (List Nat)
  | 0, _ => []
  | _, [] => []
  | fuel + 1, l => l.take 64 :: chunks64F fuel (l.drop 64)

/-- Big-endian 4-byte decomposition of a 32-bit word. -/
def wordBytes (x : Nat) : List Nat :=
  [(x >>> 24) % 256, (x >>> 16) % 256, (x >>> 8) % 256, x % 256]

/-- SHA-256 of a byte string, as 32 output bytes. -/
def sha256Bytes (msg : List Nat) : List Nat :=
  let padded := sha_pad msg
  let blocks := chunks64F padded.length padded
  ((blocks.foldl sha_compress sha_h0).map wordBytes).flatten

/-- Lowercase hexadecimal digit. -/
def hexChar (n : Nat) : Char :=
  if n < 10 then Char.ofNat (48 + n) else Char.ofNat (87 + n)

/-- Two-digit lowercase hex of a byte. -/
def byteHex (b : Nat) : String := String.mk [hexChar (b / 16), hexChar (b % 16)]

/-- Lowercase hex digest of a byte list (Python `hexdigest`). -/
def hexdigest (bs : List Nat) : String := String.join (bs.map byteHex)

/-- UTF-8 encoding of one character, as bytes (Python `str.encode`). -/
def utf8Bytes (c : Char) : List Nat :=
  let n := c.toNat
  if n < 128 then [n]
  else if n < 2048 then [192 ||| (n >>> 6), 128 ||| (n &&& 63)]
  else if n < 65536 then
    [224 ||| (n >>> 12), 128 ||| ((n >>> 6) &&& 63), 128 ||| (n &&& 63)]
  else
    [240 ||| (n >>> 18), 128 ||| ((n >>> 12) &&& 63),
     128 ||| ((n >>> 6) &&& 63), 128 ||| (n &&& 63)]

/-- UTF-8 bytes of a string. -/
def strBytes (s : String) : List Nat := (s.data.map utf8Bytes).flatten

/-- SHA-256 hex digest of a string, i.e. Python
`hashlib.sha256(s.encode()).hexdigest()`. -/
def sha256hex (s : String) : String := hexdigest (sha256Bytes (strBytes s))

/-- Four lowercase hex digits, for JSON unicode escapes. -/
def u4hex (n : Nat) : String :=
  String.mk [hexChar (n / 4096 % 16), hexChar (n / 256 % 16), hexChar (n / 16 % 16), hexChar (n % 16)]

/-- Escape one character the way Python `json.dumps` (default `ensure_ascii`)
does: quote and backslash escaped, named control escapes, `\uXXXX` for other
control characters and all non-ASCII, surrogate pairs beyond the BMP. -/
def jsonEscapeChar (c : Char) : String :=
  let n := c.toNat
  if n = 34 then "\\\""
  else if n = 92 then "\\\\"
  else if n = 8 then "\\b"
  else if n = 9 then "\\t"
  else if n = 10 then "\\n"
  else if n = 12 then "\\f"
  else if n = 13 then "\\r"
  else if n < 32 then "\\u" ++ u4hex n
  else if n < 127 then String.mk [c]
  else if n < 65536 then "\\u" ++ u4hex n
  else "\\u" ++ u4hex (55296 + (n - 65536) / 1024) ++ "\\u" ++ u4hex (56320 + (n - 65536) % 1024)

/-- JSON string literal: double quotes around the escaped characters. -/
def jsonStr (s : String) : String :=
  "\"" ++ String.join (s.data.map jsonEscapeChar) ++ "\""

/-- Payloads are Python dicts from string keys to string values, modelled as
insertion-ordered association lists (a Python dict never holds two equal
keys, so theorems that depend on dict identity carry a `Nodup` hypothesis). -/
abbrev Payload := List (String × String)

/-- Insert a pair into a key-sorted list, keeping the insert before equal
keys (this makes the sort stable, as Python's `sorted` is). -/
def insPair (x : String × String) : Payload → Payload
  | [] => [x]
  | y :: ys => if x.1 ≤ y.1 then x :: y :: ys else y :: insPair x ys

/-- Stable insertion sort of a payload by key, modelling the key ordering
`json.dumps(..., sort_keys=True)` applies. -/
def sortPairs : Payload → Payload
  | [] => []
  | x :: xs => insPair x (sortPairs xs)

/-- Python `json.dumps(d, sort_keys=True)` for a string-to-string dict, with
the default separators `", "` and `": "`. -/
def dumpsDict (d : Payload) : String :=
  "\x7b" ++
    String.intercalate ", " ((sortPairs d).map (fun p => jsonStr p.1 ++ ": " ++ jsonStr p.2)) ++
    "\x7d"

/-- Canonical serialization of `block_info`: `json.dumps(block_info,
sort_keys=True)` emits the four fixed keys in their sorted order
`"Data" < "Index" < "Previous Hash" < "Timestamp"`, with the nested payload
dict itself key-sorted. -/
def blockInfoStr (index : Nat) (timestamp : String) (data : Payload) (prev_hash : String) : String :=
  "\x7b\"Data\": " ++ dumpsDict data ++
  ", \"Index\": " ++ toString index ++
  ", \"Previous Hash\": " ++ jsonStr prev_hash ++
  ", \"Timestamp\": " ++ jsonStr timestamp ++ "\x7d"

/-- Block.calcHash: SHA-256 hex digest of the canonical serialization. -/
def calcHash (index : Nat) (timestamp : String) (data : Payload) (prev_hash : String) : String :=
  sha256hex (blockInfoStr index timestamp data prev_hash)

/-- A Block as stored: the four content fields plus the stored digest. The
stored `hash` is a plain field, so tampering (a stored hash that no longer
matches the content) is representable. -/
structure Block where
  index : Nat
  timestamp : String
  data : Payload
  prev_hash : String
  hash : String
deriving DecidableEq, Inhabited

/-- Block.__init__: store the four fields and set `hash := calcHash`. -/
def Block.make (index : Nat) (timestamp : String) (data : Payload) (prev_hash : String) : Block :=
  ⟨index, timestamp, data, prev_hash, calcHash index timestamp data prev_hash⟩

/-- Errors raised by the embedded Python fragments. -/
inductive PyError
  | indexError
deriving DecidableEq

/-- Python `list[-1]`: the last element, or IndexError on an empty list. -/
def pyLast (l : List Block) : Except PyError Block :=
  match l.getLast? with
  | some b => Except.ok b
  | none => Except.error PyError.indexError

/-- PharmaBlockChain.retrieve_block: `return self.chain[-1]`. -/
def retrieve_block (chain : List Block) : Except PyError Block := pyLast chain

/-- PharmaBlockChain.last_block property: `return self.chain[-1]`. -/
def last_block (chain : List Block) : Except PyError Block := pyLast chain

/-- PharmaBlockChain.generate_genesis_block; `ts` is the `time.ctime()`
value captured at construction. -/
def generate_genesis_block (ts : String) : Block :=
  Block.make 0 ts [("Event", "Genesis Block")] "0"

/-- PharmaBlockChain.__init__: `self.chain = [self.generate_genesis_block()]`. -/
def chainInit (ts : String) : List Block := [generate_genesis_block ts]

/-- PharmaBlockChain.create_block: read the tail block, construct the new
linked block, append it. An empty chain would propagate the IndexError
raised inside retrieve_block. -/
def create_block (chain : List Block) (ts : String) (data : Payload) : Except PyError (List Block) :=
  match retrieve_block chain with
  | Except.error e => Except.error e
  | Except.ok lastB => Except.ok (chain ++ [Block.make (lastB.index + 1) ts data lastB.hash])

/-- Iterate create_block over a list of (timestamp, payload) events: the
chains reachable from a constructed PharmaBlockChain are exactly the results
of `appendBlocks (chainInit ts0) events`. -/
def appendBlocks (chain : List Block) : List (String × Payload) → Except PyError (List Block)
  | [] => Except.ok chain
  | (ts, d) :: rest =>
    match create_block chain ts d with
    | Except.ok ch2 => appendBlocks ch2 rest
    | Except.error e => Except.error e

/-- Loop body of PharmaBlockChain.validation, iterating over the index list
`range(1, len(chain))`. The `Option Nat` component records the index `i`
printed by the `"Block i has been tampered with"` report; the Python return
value proper is the Bool. -/
def validationLoop (chain : List Block) : List Nat → Bool × Option Nat
  | [] => (true, none)
  | i :: rest =>
    if (chain.getD i default).prev_hash ≠ (chain.getD (i - 1) default).hash then
      (false, some i)
    else validationLoop chain rest

/-- PharmaBlockChain.validation: walk `i` over `range(1, len(chain))` and
compare each stored `prev_hash` with the predecessor's stored `hash`. -/
def validation (chain : List Block) : Bool × Option Nat :=
  validationLoop chain (List.range' 1 (chain.length - 1))

/-- Whether `needle` is an initial segment of `hay`. -/
def listLeads : List Char → List Char → Bool
  | [], _ => true
  | _ :: _, [] => false
  | a :: as, b :: bs => a = b && listLeads as bs

/-- Substring containment on character lists. -/
def listHasSub (needle : List Char) : List Char → Bool
  | [] => needle.isEmpty
  | c :: rest => listLeads needle (c :: rest) || listHasSub needle rest

/-- Python's `needle in hay` substring test on strings. -/
def strHasSub (needle hay : String) : Bool := listHasSub needle.data hay.data

/-- Characters of the first line, up to and including the first newline. -/
def takeLine : List Char → List Char
  | [] => []
  | c :: cs => if c = '\n' then [c] else c :: takeLine cs

/-- Python `file.readline()` on the file's full contents. -/
def readline1 (s : String) : String := String.mk (takeLine s.data)

/-- Quote a CSV field when it holds a delimiter, quote char or line break,
doubling inner quote chars (`csv.writer` QUOTE_MINIMAL default). -/
def csvField (s : String) : String :=
  if s.data.any (fun c => c = ',' || c = '"' || c = '\n' || c = '\r') then
    "\"" ++ String.mk (s.data.flatMap (fun c => if c = '"' then ['"', '"'] else [c])) ++ "\""
  else s

/-- One CSV row: comma-joined fields plus the `csv.writer` default CRLF
terminator (the file is opened with `newline=""`, so no translation). -/
def csvRowStr (fields : List String) : String :=
  String.intercalate "," (fields.map csvField) ++ "\r\n"

/-- The ledger data row written for one block: timestamp, the canonical JSON
serialization of the payload, and the stored hash. -/
def ledgerRow (b : Block) : String :=
  csvRowStr [b.timestamp, dumpsDict b.data, b.hash]

/-- Header test of write_chain: a header is needed when the file is absent,
has size zero, or its first line does not contain `"Timestamp"`. -/
def headerNeeded (file : Option String) : Bool :=
  match file with
  | none => true
  | some content => content.isEmpty || !strHasSub "Timestamp" (readline1 content)

/-- PharmaBlockChain.write_chain, with the destination file modelled as its
contents (`none` = file absent; opening in append mode creates it). The
result is the file's new contents. -/
def write_chain (chain : List Block) (file : Option String) : String :=
  (file.getD "") ++
  (if headerNeeded file then csvRowStr ["Timestamp", "Data", "Hash"] else "") ++
  String.join (chain.map ledgerRow)

/-- Python `dict.get(k, dflt)` on a payload. -/
def dictGet (d : Payload) (k dflt : String) : String :=
  match d.find? (fun p => p.1 == k) with
  | some p => p.2
  | none => dflt

/-- The lines printed for one block by PharmaBlockChain.display_chain. -/
def display_block (b : Block) : List String :=
  ["\nBlock #" ++ toString b.index,
   "Timestamp: " ++ b.timestamp,
   "Event: " ++ dictGet b.data "event" "N/A",
   "Batch ID: " ++ dictGet b.data "batch_id" "N/A",
   "Location: " ++ dictGet b.data "location" "N/A",
   "Destination: " ++ dictGet b.data "destination" "N/A",
   "Hash: " ++ b.hash,
   "Previous Hash: " ++ b.prev_hash]

/-- PharmaBlockChain.display_chain output, as the lines per block. -/
def display_chain (chain : List Block) : List (List String) :=
  chain.map display_block

/-- Link continuity at position `i`: the check validation performs there. -/
def linkOk (chain : List Block) (i : Nat) : Prop :=
  (chain.getD i default).prev_hash = (chain.getD (i - 1) default).hash

/-- All in-range positions from 1 on pass the link check. -/
def allLinksOk (chain : List Block) : Prop :=
  ∀ i, 1 ≤ i → i < chain.length → linkOk chain i

/-- Every block's stored index equals its position in the chain. -/
def goodIdx (chain : List Block) : Prop :=
  ∀ i, i < chain.length → (chain.getD i default).index = i

/-- Two-block chain whose second block had its stored hash overwritten after
construction, while its link to the genesis block is consistent. -/
def tamperedDemo : List Block :=
  [generate_genesis_block "t0",
   { index := 1, timestamp := "t1", data := [("event", "Altered")],
     prev_hash := (generate_genesis_block "t0").hash, hash := "deadbeef" }]

/-- Index stored by the Block constructor. -/
theorem Block.make_index (i : Nat) (ts : String) (d : Payload) (ph : String) :
    (Block.make i ts d ph).index = i := rfl

/-- Timestamp stored by the Block constructor. -/
theorem Block.make_timestamp (i : Nat) (ts : String) (d : Payload) (ph : String) :
    (Block.make i ts d ph).timestamp = ts := rfl

/-- Payload stored by the Block constructor. -/
theorem Block.make_data (i : Nat) (ts : String) (d : Payload) (ph : String) :
    (Block.make i ts d ph).data = d := rfl

/-- Previous-hash field stored by the Block constructor. -/
theorem Block.make_prev (i : Nat) (ts : String) (d : Payload) (ph : String) :
    (Block.make i ts d ph).prev_hash = ph := rfl

/-- The Block constructor computes and stores `hash = calcHash` over its own
four fields: the hash is a pure function of those fields. -/
theorem Block.make_hash (i : Nat) (ts : String) (d : Payload) (ph : String) :
    (Block.make i ts d ph).hash = calcHash i ts d ph := by
  simp [Block.make]

/-- The validation loop succeeds exactly when every visited index passes the
link check. -/
theorem validationLoop_true_iff (chain : List Block) (is : List Nat) :
    validationLoop chain is = (true, none) ↔ ∀ i ∈ is, linkOk chain i := by
  induction is with
  | nil => simp [validationLoop]
  | cons i rest ih =>
    by_cases h : (chain.getD i default).prev_hash = (chain.getD (i - 1) default).hash
    · simp only [validationLoop, h, ne_eq, not_true_eq_false, if_false, ih,
        List.mem_cons, linkOk]
      constructor
      · intro hall j hj
        cases hj with
        | inl hj => subst hj; exact h
        | inr hj => exact hall j hj
      · intro hall j hj; exact hall j (Or.inr hj)
    · simp only [validationLoop, h, ne_eq, not_false_eq_true, if_true]
      constructor
      · intro hfalse; cases hfalse
      · intro hall; exact absurd (hall i (List.mem_cons_self i rest)) h

/-- The validation loop stops at the first failing index and reports it. -/
theorem validationLoop_firstFail (chain : List Block) (is1 : List Nat) (i : Nat) (is2 : List Nat)
    (hok : ∀ j ∈ is1, linkOk chain j) (hbad : ¬ linkOk chain i) :
    validationLoop chain (is1 ++ i :: is2) = (false, some i) := by
  induction is1 with
  | nil =>
    simp only [List.nil_append, validationLoop]
    rw [if_pos]
    exact hbad
  | cons j rest ih =>
    have hj : linkOk chain j := hok j (List.mem_cons_self j rest)
    simp only [List.cons_append, validationLoop]
    rw [if_neg]
    · exact ih (fun k hk => hok k (List.mem_cons_of_mem j hk))
    · simpa [linkOk] using hj

/-- Characterization of a positive verdict: every in-range position from 1 on
passes the link check. -/
theorem validation_true_iff (chain : List Block) :
    validation chain = (true, none) ↔ ∀ i, 1 ≤ i → i < chain.length → linkOk chain i := by
  unfold validation
  rw [validationLoop_true_iff]
  constructor
  · intro h i h1 h2
    exact h i (List.mem_range'_1.mpr ⟨h1, by omega⟩)
  · intro h i hi
    obtain ⟨h1, h2⟩ := List.mem_range'_1.mp hi
    exact h i h1 (by omega)

/-- The tail of a non-empty list, as `getD` at the last position. -/
theorem getLast?_getD (l : List Block) (t : Block) (h : l.getLast? = some t) :
    l.getD (l.length - 1) default = t := by
  have hne : l ≠ [] := by
    intro he; rw [he] at h; cases h
  rw [List.getLast?_eq_getLast_of_ne_nil hne] at h
  have hlt : l.length - 1 < l.length := by
    cases l with
    | nil => exact absurd rfl hne
    | cons a as => simp
  rw [List.getD_eq_getElem l default hlt, List.getLast_eq_getElem] at *
  exact Option.some.inj h

/-- Validation reads only the stored `prev_hash` and `hash` fields of the
blocks: chains that agree on those fields get identical verdicts. -/
theorem validation_depends_only_on_links (ch1 ch2 : List Block)
    (h : ch1.map (fun b => (b.prev_hash, b.hash)) = ch2.map (fun b => (b.prev_hash, b.hash))) :
    validation ch1 = validation ch2 := by
  have hlen : ch1.length = ch2.length := by
    have := congrArg List.length h
    simpa using this
  have hfld : ∀ i, (ch1.getD i default).prev_hash = (ch2.getD i default).prev_hash ∧
      (ch1.getD i default).hash = (ch2.getD i default).hash := by
    intro i
    have h2 := congrArg (fun l => l[i]?) h
    simp only [List.getElem?_map] at h2
    rw [List.getD_eq_getElem?_getD, List.getD_eq_getElem?_getD]
    cases he1 : ch1[i]? with
    | none =>
      have he2 : ch2[i]? = none := by
        rw [List.getElem?_eq_none_iff] at he1 ⊢
        omega
      rw [he2]
      exact ⟨rfl, rfl⟩
    | some b1 =>
      rw [he1] at h2
      cases he2 : ch2[i]? with
      | none =>
        rw [he2] at h2
        simp at h2
      | some b2 =>
        rw [he2] at h2
        simp only [Option.map_some'] at h2
        have hb := Option.some.inj h2
        simp only [he2, Option.getD_some]
        exact ⟨congrArg Prod.fst hb, congrArg Prod.snd hb⟩
  unfold validation
  rw [hlen]
  generalize List.range' 1 (ch2.length - 1) = is
  induction is with
  | nil => rfl
  | cons i rest ih =>
    simp only [validationLoop]
    rw [(hfld i).1, (hfld (i - 1)).2, ih]

set_option maxRecDepth 100000 in
/-- C1 counterexample: in `tamperedDemo` the second block's stored hash is
not the SHA-256 digest of the canonical serialization of its own content,
every link is consistent, and validation nevertheless returns the positive
verdict — contrary to the claim, no digest-recomputation check happens. -/
theorem C1_counterexample :
    validation tamperedDemo = (true, none) ∧
    (tamperedDemo.getD 1 default).hash ≠
      calcHash (tamperedDemo.getD 1 default).index (tamperedDemo.getD 1 default).timestamp
        (tamperedDemo.getD 1 default).data (tamperedDemo.getD 1 default).prev_hash := by
  constructor
  · decide
  · decide

set_option maxRecDepth 100000 in
/-- C1 (amended): validation performs only the link-continuity check. Its
verdict is positive exactly when every position from 1 on carries its
predecessor's stored hash, the verdict depends only on the stored
`(prev_hash, hash)` fields — so the stored digests are never recomputed from
block content — and a block whose stored hash was altered after
construction, with the links left consistent, still yields a true verdict. -/
theorem C1_link_check_only (chain ch2 : List Block)
    (hmap : chain.map (fun b => (b.prev_hash, b.hash)) = ch2.map (fun b => (b.prev_hash, b.hash))) :
    (validation chain = (true, none) ↔ allLinksOk chain) ∧
    validation chain = validation ch2 ∧
    validation tamperedDemo = (true, none) :=
  ⟨validation_true_iff chain, validation_depends_only_on_links chain ch2 hmap, by decide⟩

/-- C1 witness: the amended theorem applied to the tampered demonstration
chain, with its hypothesis discharged by reflexivity. -/
theorem C1_link_check_only_witness :
    ((validation tamperedDemo = (true, none) ↔ allLinksOk tamperedDemo) ∧
     validation tamperedDemo = validation tamperedDemo ∧
     validation tamperedDemo = (true, none)) :=
  C1_link_check_only tamperedDemo tamperedDemo rfl

/-- C2: appending to a valid chain one block whose `prev_hash` differs from
the true tail hash makes validation return the negative verdict and report
offending index `N = chain.length`, the 0-indexed position of the appended
block. The embedding of validation is a pure function returning an ordinary
value, so the chain and its blocks are left unchanged and no exception is
involved. -/
theorem C2_tamper_at_tail (chain : List Block) (t b : Block)
    (htail : chain.getLast? = some t)
    (hvalid : validation chain = (true, none))
    (hbad : b.prev_hash ≠ t.hash) :
    validation (chain ++ [b]) = (false, some chain.length) := by
  have hne : chain ≠ [] := by
    intro he
    rw [he] at htail
    cases htail
  have hlen1 : 1 ≤ chain.length := by
    cases chain with
    | nil => exact absurd rfl hne
    | cons a as => simp
  have hlinks := (validation_true_iff chain).mp hvalid
  unfold validation
  have hlen2 : (chain ++ [b]).length = chain.length + 1 := by simp
  rw [hlen2]
  have hrange : List.range' 1 (chain.length + 1 - 1) =
      List.range' 1 (chain.length - 1) ++ [chain.length] := by
    have h1 : chain.length + 1 - 1 = (chain.length - 1) + 1 := by omega
    rw [h1, List.range'_concat]
    have h2 : 1 + 1 * (chain.length - 1) = chain.length := by omega
    rw [h2]
  rw [hrange]
  apply validationLoop_firstFail
  · intro j hj
    obtain ⟨hj1, hj2⟩ := List.mem_range'_1.mp hj
    have hjlt : j < chain.length := by omega
    have hjm : j - 1 < chain.length := by omega
    unfold linkOk
    rw [List.getD_append _ _ _ _ hjlt, List.getD_append _ _ _ _ hjm]
    exact hlinks j hj1 hjlt
  · unfold linkOk
    rw [List.getD_append_right chain [b] default chain.length (Nat.le_refl _),
        Nat.sub_self,
        List.getD_append chain [b] default (chain.length - 1) (by omega),
        getLast?_getD chain t htail]
    simpa using hbad

set_option maxRecDepth 100000 in
/-- C2 witness: a genesis-only valid chain, extended by a block built with
the wrong previous hash `"WRONG"`; validation reports offending index 1. -/
theorem C2_tamper_at_tail_witness :
    (chainInit "t0").getLast? = some (generate_genesis_block "t0") ∧
    validation (chainInit "t0") = (true, none) ∧
    (Block.make 1 "t1" [("event", "E")] "WRONG").prev_hash ≠ (generate_genesis_block "t0").hash ∧
    validation (chainInit "t0" ++ [Block.make 1 "t1" [("event", "E")] "WRONG"]) =
      (false, some (chainInit "t0").length) :=
  ⟨rfl, rfl, by decide,
   C2_tamper_at_tail (chainInit "t0") (generate_genesis_block "t0")
     (Block.make 1 "t1" [("event", "E")] "WRONG") rfl rfl (by decide)⟩

/-- Running create_block from a non-empty chain always succeeds, grows the
chain by one block per event, leaves the existing positions unchanged, and
preserves link continuity and index numbering. -/
theorem appendBlocks_spec (events : List (String × Payload)) (chain : List Block)
    (hne : chain ≠ []) :
    ∃ ch, appendBlocks chain events = Except.ok ch ∧
      ch.length = chain.length + events.length ∧
      (∀ j, j < chain.length → ch.getD j default = chain.getD j default) ∧
      ch ≠ [] ∧
      (allLinksOk chain → allLinksOk ch) ∧
      (goodIdx chain → goodIdx ch) := by
  induction events generalizing chain with
  | nil => exact ⟨chain, rfl, by simp [appendBlocks], fun j _ => rfl, hne, id, id⟩
  | cons e rest ih =>
    obtain ⟨ts, d⟩ := e
    have hgl : ∃ t, chain.getLast? = some t := by
      cases h : chain.getLast? with
      | none => exact absurd (List.getLast?_eq_none_iff.mp h) hne
      | some t => exact ⟨t, rfl⟩
    obtain ⟨t, ht⟩ := hgl
    have hlen1 : 1 ≤ chain.length := by
      cases chain with
      | nil => exact absurd rfl hne
      | cons a as => simp
    have hcb : create_block chain ts d =
        Except.ok (chain ++ [Block.make (t.index + 1) ts d t.hash]) := by
      unfold create_block retrieve_block pyLast
      rw [ht]
    have hne2 : chain ++ [Block.make (t.index + 1) ts d t.hash] ≠ [] := by simp
    obtain ⟨ch, hab, hlen, hstable, hchne, hlinks, hidx⟩ :=
      ih (chain ++ [Block.make (t.index + 1) ts d t.hash]) hne2
    refine ⟨ch, ?_, ?_, ?_, hchne, ?_, ?_⟩
    · unfold appendBlocks
      rw [hcb]
      exact hab
    · rw [hlen]
      simp
      omega
    · intro j hj
      rw [hstable j (by simp; omega)]
      exact List.getD_append _ _ _ _ hj
    · intro hall
      apply hlinks
      intro i h1 h2
      simp only [List.length_append, List.length_cons, List.length_nil] at h2
      by_cases hcase : i < chain.length
      · unfold linkOk
        rw [List.getD_append _ _ _ _ hcase, List.getD_append _ _ _ _ (by omega)]
        exact hall i h1 hcase
      · have hieq : i = chain.length := by omega
        subst hieq
        unfold linkOk
        rw [List.getD_append_right chain _ default chain.length (Nat.le_refl _),
            Nat.sub_self,
            List.getD_append chain _ default (chain.length - 1) (by omega),
            getLast?_getD chain t ht]
        simp [Block.make]
    · intro hgood
      apply hidx
      intro i hi
      simp only [List.length_append, List.length_cons, List.length_nil] at hi
      by_cases hcase : i < chain.length
      · rw [List.getD_append _ _ _ _ hcase]
        exact hgood i hcase
      · have hieq : i = chain.length := by omega
        subst hieq
        rw [List.getD_append_right chain _ default chain.length (Nat.le_refl _), Nat.sub_self]
        have htidx : t.index = chain.length - 1 := by
          have hg := hgood (chain.length - 1) (by omega)
          rw [getLast?_getD chain t ht] at hg
          exact hg
        simp [Block.make, htidx]
        omega

/-- C3: a freshly built chain — genesis plus N appends with arbitrary
payloads and timestamps — validates positively, and every position from 1
on stores its predecessor's hash as its `prev_hash`. -/
theorem C3_fresh_chain_valid (ts0 : String) (events : List (String × Payload)) :
    ∃ ch, appendBlocks (chainInit ts0) events = Except.ok ch ∧
      validation ch = (true, none) ∧
      ch.length = events.length + 1 ∧
      allLinksOk ch := by
  obtain ⟨ch, hab, hlen, _, _, hlinks, _⟩ :=
    appendBlocks_spec events (chainInit ts0) (by simp [chainInit])
  have hall : allLinksOk ch := by
    apply hlinks
    intro i h1 h2
    simp [chainInit] at h2
    omega
  refine ⟨ch, hab, (validation_true_iff ch).mpr hall, ?_, hall⟩
  rw [hlen]
  simp [chainInit]
  omega

/-- C5: genesis invariants in every chain state reachable by appends: the
block at position 0 has index 0, the sentinel previous hash "0", the fixed
genesis marker payload, and a stored hash equal to the SHA-256 digest of the
canonical serialization of its own content. -/
theorem C5_genesis_invariants (ts0 : String) (events : List (String × Payload))
    (ch : List Block) (hreach : appendBlocks (chainInit ts0) events = Except.ok ch) :
    (ch.getD 0 default).index = 0 ∧
    (ch.getD 0 default).prev_hash = "0" ∧
    (ch.getD 0 default).data = [("Event", "Genesis Block")] ∧
    (ch.getD 0 default).hash =
      calcHash (ch.getD 0 default).index (ch.getD 0 default).timestamp
        (ch.getD 0 default).data (ch.getD 0 default).prev_hash := by
  obtain ⟨ch2, hab, _, hstable, _, _, _⟩ :=
    appendBlocks_spec events (chainInit ts0) (by simp [chainInit])
  rw [hreach] at hab
  injection hab with hch
  subst hch
  have h0 : ch.getD 0 default = generate_genesis_block ts0 := by
    rw [hstable 0 (by simp [chainInit])]
    rfl
  rw [h0]
  unfold generate_genesis_block
  rw [Block.make_index, Block.make_timestamp, Block.make_data, Block.make_prev, Block.make_hash]
  exact ⟨rfl, rfl, rfl, rfl⟩

/-- C5 witness: the invariants instantiated at the freshly constructed
chain, before any append. -/
theorem C5_genesis_invariants_witness :
    appendBlocks (chainInit "t0") [] = Except.ok (chainInit "t0") ∧
    (((chainInit "t0").getD 0 default).index = 0 ∧
     ((chainInit "t0").getD 0 default).prev_hash = "0" ∧
     ((chainInit "t0").getD 0 default).data = [("Event", "Genesis Block")] ∧
     ((chainInit "t0").getD 0 default).hash =
       calcHash ((chainInit "t0").getD 0 default).index ((chainInit "t0").getD 0 default).timestamp
         ((chainInit "t0").getD 0 default).data ((chainInit "t0").getD 0 default).prev_hash) :=
  ⟨rfl, C5_genesis_invariants "t0" [] (chainInit "t0") rfl⟩

/-- C6: create_block reads the tail block and appends exactly one new block,
with index one more than the tail's, the given payload, and the tail's
stored hash as `prev_hash`; the length grows by exactly one; and in every
chain reachable from construction by appends, each block's stored index
equals its position. -/
theorem C6_append_postcondition (chain : List Block) (t : Block) (ts : String) (d : Payload)
    (htail : chain.getLast? = some t) :
    create_block chain ts d = Except.ok (chain ++ [Block.make (t.index + 1) ts d t.hash]) ∧
    (chain ++ [Block.make (t.index + 1) ts d t.hash]).length = chain.length + 1 ∧
    (∀ ts0 events ch, appendBlocks (chainInit ts0) events = Except.ok ch → goodIdx ch) := by
  refine ⟨?_, by simp, ?_⟩
  · unfold create_block retrieve_block pyLast
    rw [htail]
  · intro ts0 events ch hreach
    obtain ⟨ch2, hab, _, _, _, _, hidx⟩ :=
      appendBlocks_spec events (chainInit ts0) (by simp [chainInit])
    rw [hreach] at hab
    injection hab with hch
    subst hch
    apply hidx
    intro i hi
    simp only [chainInit, List.length_cons, List.length_nil] at hi
    have hi0 : i = 0 := by omega
    subst hi0
    rfl

/-- C6 witness: the postcondition instantiated at the fresh chain and one
concrete append. -/
theorem C6_append_postcondition_witness :
    (chainInit "t0").getLast? = some (generate_genesis_block "t0") ∧
    (create_block (chainInit "t0") "t1" [("event", "E")] =
      Except.ok (chainInit "t0" ++
        [Block.make ((generate_genesis_block "t0").index + 1) "t1" [("event", "E")]
          (generate_genesis_block "t0").hash]) ∧
     (chainInit "t0" ++
        [Block.make ((generate_genesis_block "t0").index + 1) "t1" [("event", "E")]
          (generate_genesis_block "t0").hash]).length = (chainInit "t0").length + 1 ∧
     (∀ ts0 events ch, appendBlocks (chainInit ts0) events = Except.ok ch → goodIdx ch)) :=
  ⟨rfl, C6_append_postcondition (chainInit "t0") (generate_genesis_block "t0") "t1" [("event", "E")] rfl⟩

/-- Inserting into a sorted list permutes consing. -/
theorem insPair_perm (x : String × String) (l : Payload) : (insPair x l).Perm (x :: l) := by
  induction l with
  | nil => simp [insPair]
  | cons y ys ih =>
    unfold insPair
    by_cases h : x.1 ≤ y.1
    · rw [if_pos h]
    · rw [if_neg h]
      exact List.Perm.trans (List.Perm.cons y ih) (List.Perm.swap x y ys)

/-- The canonicalizing sort permutes its input. -/
theorem sortPairs_perm (l : Payload) : (sortPairs l).Perm l := by
  induction l with
  | nil => simp [sortPairs]
  | cons x xs ih =>
    unfold sortPairs
    exact (insPair_perm x (sortPairs xs)).trans (List.Perm.cons x ih)

/-- Insertion preserves sortedness by key. -/
theorem insPair_sorted (x : String × String) (l : Payload)
    (h : List.Pairwise (fun a b => a.1 ≤ b.1) l) :
    List.Pairwise (fun a b => a.1 ≤ b.1) (insPair x l) := by
  induction l with
  | nil => simp [insPair]
  | cons y ys ih =>
    rw [List.pairwise_cons] at h
    obtain ⟨hy, hys⟩ := h
    unfold insPair
    by_cases hxy : x.1 ≤ y.1
    · rw [if_pos hxy, List.pairwise_cons]
      constructor
      · intro z hz
        cases List.mem_cons.mp hz with
        | inl hzy => rw [hzy]; exact hxy
        | inr hzys => exact le_trans hxy (hy z hzys)
      · rw [List.pairwise_cons]
        exact ⟨hy, hys⟩
    · rw [if_neg hxy, List.pairwise_cons]
      constructor
      · intro z hz
        cases List.mem_cons.mp ((insPair_perm x ys).mem_iff.mp hz) with
        | inl hzx => rw [hzx]; exact le_of_lt (not_le.mp hxy)
        | inr hzys => exact hy z hzys
      · exact ih hys

/-- The canonicalizing sort orders pairs by key. -/
theorem sortPairs_sorted (l : Payload) :
    List.Pairwise (fun a b => a.1 ≤ b.1) (sortPairs l) := by
  induction l with
  | nil => simp [sortPairs]
  | cons x xs ih =>
    unfold sortPairs
    exact insPair_sorted x (sortPairs xs) ih

/-- A key-sorted payload with pairwise-distinct keys is strictly sorted. -/
theorem sorted_strict_of_nodup_keys (l : Payload)
    (hs : List.Pairwise (fun a b => a.1 ≤ b.1) l)
    (hnd : (l.map Prod.fst).Nodup) :
    List.Pairwise (fun a b : String × String => a.1 < b.1) l := by
  have hne : List.Pairwise (fun a b : String × String => a.1 ≠ b.1) l :=
    List.pairwise_map.mp hnd
  exact (hs.and hne).imp (fun h => lt_of_le_of_ne h.1 h.2)

instance : IsAntisymm (String × String) (fun a b => a.1 < b.1) where
  antisymm _ _ h1 h2 := absurd h2 (lt_asymm h1)

/-- Key-order independence of the canonicalizing sort: payloads that are
equal as mappings (permutations with no duplicate keys) sort identically. -/
theorem sortPairs_eq_of_perm (d1 d2 : Payload) (hperm : d1.Perm d2)
    (hnd : (d1.map Prod.fst).Nodup) : sortPairs d1 = sortPairs d2 := by
  have hp : (sortPairs d1).Perm (sortPairs d2) :=
    ((sortPairs_perm d1).trans hperm).trans (sortPairs_perm d2).symm
  have hnd1 : ((sortPairs d1).map Prod.fst).Nodup :=
    (((sortPairs_perm d1).map Prod.fst).symm).nodup hnd
  have hnd2 : ((sortPairs d2).map Prod.fst).Nodup :=
    ((hp.map Prod.fst)).nodup hnd1
  exact List.eq_of_perm_of_sorted hp
    (sorted_strict_of_nodup_keys (sortPairs d1) (sortPairs_sorted d1) hnd1)
    (sorted_strict_of_nodup_keys (sortPairs d2) (sortPairs_sorted d2) hnd2)

/-- C4: block hashing is deterministic and canonicalization is
key-order-independent: two payloads equal as mappings whose keys were
supplied in different insertion orders give identical hashes, and the stored
hash is exactly `calcHash` of the four construction fields, a pure
function of those fields. -/
theorem C4_hash_key_order_independent (i : Nat) (ts : String) (d1 d2 : Payload) (ph : String)
    (hperm : d1.Perm d2) (hnd : (d1.map Prod.fst).Nodup) :
    (Block.make i ts d1 ph).hash = (Block.make i ts d2 ph).hash ∧
    (Block.make i ts d1 ph).hash = calcHash i ts d1 ph := by
  refine ⟨?_, Block.make_hash i ts d1 ph⟩
  rw [Block.make_hash, Block.make_hash]
  unfold calcHash blockInfoStr dumpsDict
  rw [sortPairs_eq_of_perm d1 d2 hperm hnd]

/-- C4 witness: the same two-entry mapping supplied in both insertion
orders hashes identically. -/
theorem C4_hash_key_order_independent_witness :
    (([("b", "2"), ("a", "1")] : Payload).Perm [("a", "1"), ("b", "2")]) ∧
    ((([("b", "2"), ("a", "1")] : Payload).map Prod.fst).Nodup) ∧
    ((Block.make 7 "t7" [("b", "2"), ("a", "1")] "ph").hash =
      (Block.make 7 "t7" [("a", "1"), ("b", "2")] "ph").hash ∧
     (Block.make 7 "t7" [("b", "2"), ("a", "1")] "ph").hash =
      calcHash 7 "t7" [("b", "2"), ("a", "1")] "ph") :=
  ⟨by decide, by decide,
   C4_hash_key_order_independent 7 "t7" [("b", "2"), ("a", "1")] [("a", "1"), ("b", "2")] "ph"
     (by decide) (by decide)⟩

/-- C7 counterexample: on the chain with zero blocks, validation does not
fail at all — Python's range(1, 0) is empty, so it terminates normally with
the positive verdict — and the tail accessor raises the builtin IndexError
of `chain[-1]`; the program defines no dedicated empty-chain error. -/
theorem C7_counterexample :
    validation ([] : List Block) = (true, none) ∧
    retrieve_block ([] : List Block) = Except.error PyError.indexError :=
  ⟨rfl, rfl⟩

/-- C7 (amended): on a chain with zero blocks, tail() fails with the
defined, reported IndexError of the out-of-range list access — an ordinary
Python exception, not undefined behavior — while validate() does not fail
but returns the positive verdict; on every non-empty chain tail() returns
the last block. -/
theorem C7_empty_chain_behavior (chain : List Block) (b : Block) (l : List Block)
    (hsplit : chain = l ++ [b]) :
    retrieve_block ([] : List Block) = Except.error PyError.indexError ∧
    validation ([] : List Block) = (true, none) ∧
    retrieve_block chain = Except.ok b := by
  refine ⟨rfl, rfl, ?_⟩
  subst hsplit
  unfold retrieve_block pyLast
  rw [List.getLast?_concat]

/-- C7 witness: the amended behavior at the freshly constructed chain. -/
theorem C7_empty_chain_behavior_witness :
    chainInit "t0" = [] ++ [generate_genesis_block "t0"] ∧
    (retrieve_block ([] : List Block) = Except.error PyError.indexError ∧
     validation ([] : List Block) = (true, none) ∧
     retrieve_block (chainInit "t0") = Except.ok (generate_genesis_block "t0")) :=
  ⟨rfl, C7_empty_chain_behavior (chainInit "t0") (generate_genesis_block "t0") [] rfl⟩

/-- C9: the two tail accessors are the same function of the chain and, on a
non-empty chain, both return the final element of the block sequence. -/
theorem C9_tail_accessors_agree (chain : List Block) (b : Block) (l : List Block)
    (hsplit : chain = l ++ [b]) :
    retrieve_block chain = last_block chain ∧
    retrieve_block chain = Except.ok b ∧
    last_block chain = Except.ok b := by
  subst hsplit
  have h : pyLast (l ++ [b]) = Except.ok b := by
    unfold pyLast
    rw [List.getLast?_concat]
  exact ⟨rfl, h, h⟩

/-- C9 witness: both accessors at a concrete two-block chain. -/
theorem C9_tail_accessors_agree_witness :
    (tamperedDemo = [generate_genesis_block "t0"] ++
      [{ index := 1, timestamp := "t1", data := [("event", "Altered")],
         prev_hash := (generate_genesis_block "t0").hash, hash := "deadbeef" }]) ∧
    (retrieve_block tamperedDemo = last_block tamperedDemo ∧
     retrieve_block tamperedDemo = Except.ok
       { index := 1, timestamp := "t1", data := [("event", "Altered")],
         prev_hash := (generate_genesis_block "t0").hash, hash := "deadbeef" } ∧
     last_block tamperedDemo = Except.ok
       { index := 1, timestamp := "t1", data := [("event", "Altered")],
         prev_hash := (generate_genesis_block "t0").hash, hash := "deadbeef" }) :=
  ⟨rfl, C9_tail_accessors_agree tamperedDemo
    { index := 1, timestamp := "t1", data := [("event", "Altered")],
      prev_hash := (generate_genesis_block "t0").hash, hash := "deadbeef" }
    [generate_genesis_block "t0"] rfl⟩

/-- C10: the genesis payload's only key is the capitalized "Event", while
display looks up the lowercase keys 'event', 'batch_id', 'location',
'destination' with default 'N/A'; so for every freshly constructed chain
the genesis row renders all four payload fields as "N/A" even though the
payload names an event. -/
theorem C10_genesis_display_na (ts : String) :
    (generate_genesis_block ts).data = [("Event", "Genesis Block")] ∧
    display_chain (chainInit ts) = [display_block (generate_genesis_block ts)] ∧
    dictGet (generate_genesis_block ts).data "event" "N/A" = "N/A" ∧
    dictGet (generate_genesis_block ts).data "batch_id" "N/A" = "N/A" ∧
    dictGet (generate_genesis_block ts).data "location" "N/A" = "N/A" ∧
    dictGet (generate_genesis_block ts).data "destination" "N/A" = "N/A" ∧
    (display_block (generate_genesis_block ts)).getD 2 "" = "Event: N/A" := by
  have hdata : (generate_genesis_block ts).data = [("Event", "Genesis Block")] :=
    Block.make_data 0 ts [("Event", "Genesis Block")] "0"
  refine ⟨hdata, rfl, ?_, ?_, ?_, ?_, ?_⟩
  · rw [hdata]
    rfl
  · rw [hdata]
    rfl
  · rw [hdata]
    rfl
  · rw [hdata]
    rfl
  · show "Event: " ++ dictGet (generate_genesis_block ts).data "event" "N/A" = "Event: N/A"
    rw [hdata]
    rfl

/-- Reading the first line stops inside the first operand of an append once
that operand holds a newline. -/
theorem takeLine_append (l1 l2 : List Char) (h : '\n' ∈ l1) :
    takeLine (l1 ++ l2) = takeLine l1 := by
  induction l1 with
  | nil => cases h
  | cons c cs ih =>
    rw [List.cons_append]
    unfold takeLine
    by_cases hc : c = '\n'
    · rw [if_pos hc, if_pos hc]
    · rw [if_neg hc, if_neg hc]
      have hcs : '\n' ∈ cs := by
        cases List.mem_cons.mp h with
        | inl he => exact absurd he.symm hc
        | inr hm => exact hm
      rw [ih hcs]

/-- C8: when the destination file is absent, empty, or its first line lacks
the header marker, export writes the prior contents, then the header row
`Timestamp,Data,Hash` exactly once, then one data row per block (timestamp,
canonical payload JSON, stored hash); the file just created by exporting to
an absent path no longer needs a header, and exporting to it again appends
only the data rows, with no duplicate header. An absent file is created,
not an error: write_chain is a total function of the prior contents. -/
theorem C8_export_header_idempotent (chain chain2 : List Block) (file : Option String)
    (htrigger : file = none ∨ file = some "" ∨
      ∃ c, file = some c ∧ strHasSub "Timestamp" (readline1 c) = false) :
    write_chain chain file =
      (file.getD "") ++ csvRowStr ["Timestamp", "Data", "Hash"] ++
        String.join (chain.map ledgerRow) ∧
    headerNeeded (some (write_chain chain none)) = false ∧
    write_chain chain2 (some (write_chain chain none)) =
      write_chain chain none ++ String.join (chain2.map ledgerRow) := by
  have hneed : headerNeeded file = true := by
    rcases htrigger with h | h | ⟨c, hc, hline⟩
    · rw [h]
      rfl
    · rw [h]
      rfl
    · rw [hc]
      show (c.isEmpty || !strHasSub "Timestamp" (readline1 c)) = true
      rw [hline]
      simp
  have hout : write_chain chain none =
      "" ++ csvRowStr ["Timestamp", "Data", "Hash"] ++ String.join (chain.map ledgerRow) := by
    unfold write_chain
    rfl
  have hdataout : (write_chain chain none).data =
      (csvRowStr ["Timestamp", "Data", "Hash"]).data ++ (String.join (chain.map ledgerRow)).data := by
    rw [hout, String.empty_append, String.data_append]
  have hline_out : readline1 (write_chain chain none) =
      String.mk (takeLine (csvRowStr ["Timestamp", "Data", "Hash"]).data) := by
    unfold readline1
    rw [hdataout, takeLine_append _ _ (by decide)]
  have hne_out : (write_chain chain none).isEmpty = false := by
    cases hcase : (write_chain chain none).isEmpty with
    | false => rfl
    | true =>
      have he : write_chain chain none = "" := (String.isEmpty_iff _).mp hcase
      have hlen : ((write_chain chain none).data).length = 0 := by
        rw [he]
        rfl
      rw [hdataout, List.length_append] at hlen
      have hcsv : (csvRowStr ["Timestamp", "Data", "Hash"]).data.length ≠ 0 := by decide
      omega
  have hnh : headerNeeded (some (write_chain chain none)) = false := by
    show ((write_chain chain none).isEmpty ||
      !strHasSub "Timestamp" (readline1 (write_chain chain none))) = false
    rw [hne_out, hline_out]
    decide
  refine ⟨?_, hnh, ?_⟩
  · unfold write_chain
    rw [hneed]
    simp
  · have h3 : ∀ out : String, headerNeeded (some out) = false →
        write_chain chain2 (some out) = out ++ String.join (chain2.map ledgerRow) := by
      intro out hno
      unfold write_chain
      rw [hno]
      simp [String.append_empty]
    exact h3 _ hnh

/-- C8 witness: export of the fresh chain to an absent file, and a second
export to the file so created. -/
theorem C8_export_header_idempotent_witness :
    ((none : Option String) = none ∨ (none : Option String) = some "" ∨
      ∃ c, (none : Option String) = some c ∧ strHasSub "Timestamp" (readline1 c) = false) ∧
    (write_chain (chainInit "t0") none =
      ((none : Option String).getD "") ++ csvRowStr ["Timestamp", "Data", "Hash"] ++
        String.join ((chainInit "t0").map ledgerRow) ∧
     headerNeeded (some (write_chain (chainInit "t0") none)) = false ∧
     write_chain (chainInit "t0") (some (write_chain (chainInit "t0") none)) =
       write_chain (chainInit "t0") none ++ String.join ((chainInit "t0").map ledgerRow)) :=
  ⟨Or.inl rfl, C8_export_header_idempotent (chainInit "t0") (chainInit "t0") none (Or.inl rfl)⟩
